import Mathlib

/-!
Shallow embedding of the `history` crate: a fixed-capacity circular stack
(`LoopedStack`, from src/stack.rs) and the undo/redo engine (`History`,
from src/lib.rs).  Machine integers (`usize`) are modelled as `Nat`; the
raw uninitialized backing storage is modelled as a `List T` of exactly
`size` physical slots whose never-written slots hold an arbitrary
`default` value (they are never read on reachable configurations).
Fallible restore calls are modelled by a success oracle `ro : T → S → Bool`
standing for `snaps.restore(stateful.state(typ))`.
-/

namespace HistoryModel

/-- `LoopedStack<T>` from src/stack.rs: backing buffer of `size` physical
slots, `len` occupied, `offset` = physical index of the logically oldest
element.  Logical index `i` lives at physical slot `(offset + i) % size`. -/
structure LoopedStack (T : Type) where
  size : Nat
  buf : List T
  len : Nat
  offset : Nat
deriving Repr, DecidableEq

namespace LoopedStack

variable {T : Type} [Inhabited T]

/-- `LoopedStack::new(size)`: empty stack with allocated storage. -/
def new (T : Type) [Inhabited T] (size : Nat) : LoopedStack T :=
  ⟨size, List.replicate size default, 0, 0⟩

/-- `LoopedStack::cursor`: physical index one past the newest element. -/
def cursor (s : LoopedStack T) : Nat :=
  (s.offset + s.len) % s.size

/-- `LoopedStack::push_new`: write at the cursor and grow. -/
def push_new (s : LoopedStack T) (v : T) : LoopedStack T :=
  { s with buf := s.buf.set s.cursor v, len := s.len + 1 }

/-- `LoopedStack::push_inplace`: read out the oldest element (the cursor slot,
since the stack is full), overwrite it, and advance `offset` by one mod `size`. -/
def push_inplace (s : LoopedStack T) (v : T) : T × LoopedStack T :=
  (s.buf.getD s.cursor default,
   { s with buf := s.buf.set s.cursor v, offset := (s.offset + 1) % s.size })

/-- `LoopedStack::push`: append, evicting and returning the oldest element
when full. -/
def push (s : LoopedStack T) (v : T) : Option T × LoopedStack T :=
  if s.len < s.size then
    (none, s.push_new v)
  else
    let p := s.push_inplace v
    (some p.1, p.2)

/-- `LoopedStack::extend`: repeated push, discarding evicted values. -/
def extend (s : LoopedStack T) (vs : List T) : LoopedStack T :=
  vs.foldl (fun acc v => (acc.push v).2) s

/-- `LoopedStack::get`: logical indexing, `none` out of `[0, len)`. -/
def get (s : LoopedStack T) (index : Nat) : Option T :=
  if index ≥ s.len then none
  else some (s.buf.getD ((s.offset + index) % s.size) default)

/-- `LoopedStack::peek`: n-from-top, `peek 0` = newest. -/
def peek (s : LoopedStack T) (nte : Nat) : Option T :=
  if nte ≥ s.len then none
  else s.get (s.len - nte - 1)

/-- `LoopedStack::last`. -/
def last (s : LoopedStack T) : Option T :=
  s.peek 0

/-- `LoopedStack::pop`: decrement `len` and read the previously-newest slot
(the slot is left logically unoccupied but not overwritten). -/
def pop (s : LoopedStack T) : Option T × LoopedStack T :=
  if s.len = 0 then (none, s)
  else
    (some (s.buf.getD ((s.offset + (s.len - 1)) % s.size) default),
     { s with len := s.len - 1 })

/-- Logical contents, oldest first: what `iter()` yields. -/
def toList (s : LoopedStack T) : List T :=
  (List.range s.len).map (fun i => s.buf.getD ((s.offset + i) % s.size) default)

/-- A sequence of pushes into a freshly constructed stack (evicted values
discarded, as in `extend`). -/
def pushRun (T : Type) [Inhabited T] (capacity : Nat) (vs : List T) : LoopedStack T :=
  (new T capacity).extend vs

/-- Reachable-configuration well-formedness: positive capacity, backing
storage of exactly `size` slots, occupancy and offset in range. -/
def WF (s : LoopedStack T) : Prop :=
  0 < s.size ∧ s.buf.length = s.size ∧ s.len ≤ s.size ∧ s.offset < s.size

instance (s : LoopedStack T) : Decidable (WF s) := by
  unfold WF; infer_instance

/-! ### Destruction (`impl Drop for LoopedStack`, src/stack.rs lines 158-186)

The drop glue only depends on `size`, `offset`, `len`; we embed it as the
list of physical ranges `(start, count)` passed to `drop_in_place`. -/

/-- The physical ranges destructed by `Drop::drop`, mirroring its branches. -/
def dropRanges (size offset len : Nat) : List (Nat × Nat) :=
  if len < size ∧ offset ≠ 0 then
    if offset + len ≤ size then
      [(offset, len)]
    else
      [(offset, size - offset), (0, len - (size - offset))]
  else
    [(0, len)]

/-- All physical slot indices destructed by `Drop::drop`, in order. -/
def droppedSlots (size offset len : Nat) : List Nat :=
  (dropRanges size offset len).flatMap (fun r => (List.range r.2).map (r.1 + ·))

/-- The physical slot indices that hold live values: logical indices `0..len`
mapped through `(offset + i) % size`. -/
def occupiedSlots (size offset len : Nat) : List Nat :=
  (List.range len).map (fun i => (offset + i) % size)

end LoopedStack

/-- `HistoryError` from src/lib.rs. -/
inductive HistoryError where
  | NoSnapshot
  | RestoreFailed
deriving Repr, DecidableEq

/-- `Entry<T>` from src/lib.rs: a model identifier paired with an opaque
snapshot.  The erased `Box<dyn Snapshot>` is modelled by an abstract
snapshot type `S`. -/
structure HEntry (T S : Type) where
  typ : T
  snaps : S
deriving Repr, DecidableEq, Inhabited

/-- The engine state: `InnerHistory` from src/lib.rs.  The `Vec` redo stack
(`undo_stack`) is a list with index 0 at the head (`Vec::push` appends at the
end, `Vec::pop` removes the last element); the `HashMap` of baselines is an
association list.  The `Stateful` collaborator holds no engine state and is
represented only through the restore oracle passed to `undo`/`redo`. -/
structure History (T S : Type) where
  entries : LoopedStack (HEntry T S)
  undo_stack : List (HEntry T S)
  baselines : List (T × S)
deriving Repr, DecidableEq

namespace History

variable {T S : Type} [DecidableEq T] [Inhabited T] [Inhabited S]

/-- `History::new(stateful, capacity)`. -/
def new (T S : Type) [Inhabited T] [Inhabited S] (capacity : Nat) : History T S :=
  ⟨LoopedStack.new (HEntry T S) capacity, [], []⟩

/-- `HashMap::get` on the baseline table. -/
def baselineLookup (bl : List (T × S)) (typ : T) : Option S :=
  (bl.find? (fun p => p.1 = typ)).map Prod.snd

/-- `History::begin(typ, f)`: evaluate `f` and insert the result only when
`typ` is absent from the baseline table. -/
def begin (h : History T S) (typ : T) (f : Unit → S) : History T S :=
  if (baselineLookup h.baselines typ).isSome then h
  else { h with baselines := (typ, f ()) :: h.baselines }

/-- `History::push` / `InnerHistory::push`: clear the redo stack, then push
the new entry into the timeline (the evicted entry, if any, is discarded). -/
def pushOp (h : History T S) (typ : T) (snap : S) :
    Except HistoryError Unit × History T S :=
  (Except.ok (),
   { h with undo_stack := [], entries := (h.entries.push ⟨typ, snap⟩).2 })

/-- `History::insert` / `InnerHistory::insert`: drain the redo stack into the
timeline front-to-back (`Vec::drain(..)` order), then push the new entry. -/
def insertOp (h : History T S) (typ : T) (snap : S) :
    Except HistoryError Unit × History T S :=
  (Except.ok (),
   { h with undo_stack := [],
            entries := ((h.entries.extend h.undo_stack).push ⟨typ, snap⟩).2 })

/-- `History::can_undo`. -/
def can_undo (h : History T S) : Bool :=
  h.entries.len > 0

/-- `History::can_redo`. -/
def can_redo (h : History T S) : Bool :=
  h.undo_stack.length > 0

/-- The `for entry in iter` loop of `History::get_last_snapshot`: the
reversed `Iter` yields `buf[(offset + remain) % buf.len()]` after
decrementing `remain`; return the first entry whose `typ` matches. -/
def findPrevAux (buf : List (HEntry T S)) (offset : Nat) (typ : T) :
    Nat → Option S
  | 0 => none
  | remain + 1 =>
    let e := buf.getD ((offset + remain) % buf.length) default
    if e.typ = typ then some e.snaps else findPrevAux buf offset typ remain

/-- `History::get_last_snapshot`: take the newest entry from the reversed
iterator (`none` when the timeline is empty), scan the remaining entries
newest-to-oldest for one with the same `typ`, and otherwise fall back to the
baseline table. -/
def get_last_snapshot (h : History T S) : Option (T × S) :=
  let buf := h.entries.buf
  let len := h.entries.len
  if len = 0 then none
  else
    let lastE := buf.getD ((h.entries.offset + (len - 1)) % buf.length) default
    match findPrevAux buf h.entries.offset lastE.typ (len - 1) with
    | some sn => some (lastE.typ, sn)
    | none => (baselineLookup h.baselines lastE.typ).map (fun sn => (lastE.typ, sn))

/-- `InnerHistory::undo`: pop the newest timeline entry and push it onto the
redo stack. -/
def innerUndo (h : History T S) : History T S :=
  match h.entries.pop with
  | (some e, ent) => { h with entries := ent, undo_stack := h.undo_stack ++ [e] }
  | (none, _) => h

/-- `InnerHistory::redo`: push the entry back into the timeline (the
`debug_assert` that nothing is evicted is proved separately). -/
def innerRedo (h : History T S) (e : HEntry T S) : History T S :=
  { h with entries := (h.entries.push e).2 }

/-- `History::undo` with restore oracle `ro`: look up the previous snapshot,
attempt the restore, and move the newest entry only on success. -/
def undo (ro : T → S → Bool) (h : History T S) :
    Except HistoryError Unit × History T S :=
  match h.get_last_snapshot with
  | some (typ, snaps) =>
    if ro typ snaps then (Except.ok (), innerUndo h)
    else (Except.error HistoryError.RestoreFailed, h)
  | none => (Except.error HistoryError.NoSnapshot, h)

/-- `History::redo` with restore oracle `ro`: `Vec::pop` the top redo entry
first, then attempt the restore, and push the entry into the timeline only on
success (on failure the popped entry has already left the redo stack and is
dropped). -/
def redo (ro : T → S → Bool) (h : History T S) :
    Except HistoryError Unit × History T S :=
  match h.undo_stack.getLast? with
  | some e =>
    let h1 := { h with undo_stack := h.undo_stack.dropLast }
    if ro e.typ e.snaps then (Except.ok (), innerRedo h1 e)
    else (Except.error HistoryError.RestoreFailed, h1)
  | none => (Except.error HistoryError.NoSnapshot, h)

end History

/-- One client-visible operation of the engine API. -/
inductive Op (T S : Type) where
  | beginOp (typ : T) (f : Unit → S)
  | pushOp (typ : T) (snap : S)
  | insertOp (typ : T) (snap : S)
  | undoOp
  | redoOp

/-- Apply one operation to the engine (the returned `Result` is discarded). -/
def step {T S : Type} [DecidableEq T] [Inhabited T] [Inhabited S]
    (ro : T → S → Bool) (h : History T S) : Op T S → History T S
  | .beginOp typ f => h.begin typ f
  | .pushOp typ snap => (h.pushOp typ snap).2
  | .insertOp typ snap => (h.insertOp typ snap).2
  | .undoOp => (History.undo ro h).2
  | .redoOp => (History.redo ro h).2

/-- Run a sequence of operations on a freshly constructed engine. -/
def run {T S : Type} [DecidableEq T] [Inhabited T] [Inhabited S]
    (ro : T → S → Bool) (capacity : Nat) (ops : List (Op T S)) : History T S :=
  ops.foldl (step ro) (History.new T S capacity)

/-- The engine invariant of §3 of the design: well-formed timeline and
`timeline.length + redo_stack.length ≤ timeline.capacity`. -/
def HistWF {T S : Type} (h : History T S) : Prop :=
  h.entries.WF ∧ h.entries.len + h.undo_stack.length ≤ h.entries.size

instance {T S : Type} (h : History T S) : Decidable (HistWF h) := by
  unfold HistWF
  infer_instance

/-! ### Concrete engine states used to instantiate the theorems -/

/-- Restore oracle that always succeeds (well-matched snapshots). -/
def roAlways : Nat → Nat → Bool := fun _ _ => true

/-- Restore oracle that always fails (shape-mismatched live state). -/
def roNever : Nat → Nat → Bool := fun _ _ => false

/-- The interleaved two-model scenario of the crate's `basic_api_test`:
capacity 10, baselines 100/200, edits 42, 69 (model 0), 3 (model 1),
117 (model 0). -/
def sampleHist : History Nat Nat :=
  run roAlways 10
    [Op.beginOp 0 (fun _ => 100), Op.beginOp 1 (fun _ => 200),
     Op.pushOp 0 42, Op.pushOp 0 69, Op.pushOp 1 3, Op.pushOp 0 117]

/-- Capacity 2 engine with one recorded edit undone: timeline `[(0, 42)]`,
redo stack `[(0, 69)]`, baseline 100 for model 0. -/
def smallHist : History Nat Nat :=
  run roAlways 2
    [Op.beginOp 0 (fun _ => 100), Op.pushOp 0 42, Op.pushOp 0 69, Op.undoOp]

/-- Capacity 1 engine whose single edit has been undone: timeline empty,
redo stack `[(0, 1)]`. -/
def capOneUndone : History Nat Nat :=
  run roAlways 1 [Op.beginOp 0 (fun _ => 100), Op.pushOp 0 1, Op.undoOp]

/-- Capacity 2 engine with one edit recorded and no baseline registered. -/
def noBaselineHist : History Nat Nat :=
  run roAlways 2 [Op.pushOp 0 1]

/-- An operation sequence exercising every API call (capacity 2). -/
def fullOps : List (Op Nat Nat) :=
  [Op.beginOp 0 (fun _ => 100), Op.pushOp 0 1, Op.pushOp 0 2, Op.undoOp,
   Op.insertOp 0 3, Op.undoOp, Op.undoOp, Op.redoOp, Op.pushOp 0 4,
   Op.redoOp]

/-! ## Theorems -/

namespace LoopedStack

variable {T : Type} [Inhabited T]

/-- Cancellation for slot indices: two in-range logical indices hitting the
same physical slot are equal. -/
lemma mod_add_cancel {size offset i j : Nat} (hi : i < size) (hj : j < size)
    (h : (offset + i) % size = (offset + j) % size) : i = j := by
  have h2 : i ≡ j [MOD size] := Nat.ModEq.add_left_cancel' offset h
  have := h2
  unfold Nat.ModEq at this
  rwa [Nat.mod_eq_of_lt hi, Nat.mod_eq_of_lt hj] at this

lemma occupiedSlots_eq_of_le {size offset len : Nat}
    (h : offset + len ≤ size) :
    occupiedSlots size offset len = (List.range len).map (offset + ·) := by
  unfold occupiedSlots
  refine List.map_congr_left ?_
  intro i hi
  rw [List.mem_range] at hi
  exact Nat.mod_eq_of_lt (lt_of_lt_of_le (by omega) h)

lemma occupiedSlots_eq_wrapped {size offset len : Nat}
    (hoff : offset < size) (hlen : len ≤ size) (hw : size < offset + len) :
    occupiedSlots size offset len =
      (List.range (size - offset)).map (offset + ·) ++
      List.range (len - (size - offset)) := by
  unfold occupiedSlots
  have hsplit : len = (size - offset) + (len - (size - offset)) := by omega
  conv_lhs => rw [hsplit]
  rw [List.range_add, List.map_append, List.map_map]
  congr 1
  · refine List.map_congr_left ?_
    intro i hi
    rw [List.mem_range] at hi
    exact Nat.mod_eq_of_lt (by omega)
  · have : ∀ j ∈ List.range (len - (size - offset)),
        ((fun i => (offset + i) % size) ∘ (fun x => size - offset + x)) j = j := by
      intro j hj
      rw [List.mem_range] at hj
      simp only [Function.comp]
      have h1 : offset + (size - offset + j) = size + j := by omega
      rw [h1, Nat.add_mod_left size j]
      exact Nat.mod_eq_of_lt (by omega)
    rw [List.map_congr_left this]
    simp

lemma droppedSlots_full_or_zero {size offset len : Nat}
    (h : ¬(len < size ∧ offset ≠ 0)) :
    droppedSlots size offset len = List.range len := by
  unfold droppedSlots dropRanges
  rw [if_neg h]
  simp

lemma droppedSlots_contiguous {size offset len : Nat}
    (h1 : len < size ∧ offset ≠ 0) (h2 : offset + len ≤ size) :
    droppedSlots size offset len = (List.range len).map (offset + ·) := by
  unfold droppedSlots dropRanges
  rw [if_pos h1, if_pos h2]
  simp

lemma droppedSlots_wrapped {size offset len : Nat}
    (h1 : len < size ∧ offset ≠ 0) (h2 : ¬(offset + len ≤ size)) :
    droppedSlots size offset len =
      (List.range (size - offset)).map (offset + ·) ++
      List.range (len - (size - offset)) := by
  unfold droppedSlots dropRanges
  rw [if_pos h1, if_neg h2]
  simp

lemma occupiedSlots_nodup {size len : Nat} (offset : Nat) (hlen : len ≤ size) :
    (occupiedSlots size offset len).Nodup := by
  unfold occupiedSlots
  refine List.Nodup.map_on ?_ (List.nodup_range len)
  intro i hi j hj hij
  rw [List.mem_range] at hi hj
  exact mod_add_cancel (by omega) (by omega) hij

/-- The drop glue visits exactly the occupied physical slots, each once. -/
lemma droppedSlots_perm_occupied {size offset len : Nat}
    (hsz : 0 < size) (hlen : len ≤ size) (hoff : offset < size) :
    (droppedSlots size offset len).Perm (occupiedSlots size offset len) := by
  by_cases hc : len < size ∧ offset ≠ 0
  · by_cases hb : offset + len ≤ size
    · rw [droppedSlots_contiguous hc hb, occupiedSlots_eq_of_le hb]
    · rw [droppedSlots_wrapped hc hb,
        occupiedSlots_eq_wrapped hoff hlen (by omega)]
  · rw [droppedSlots_full_or_zero hc]
    rcases Nat.lt_or_ge len size with hlt | hge
    · -- offset = 0
      have hz : offset = 0 := by tauto
      rw [hz] at hoff ⊢
      rw [occupiedSlots_eq_of_le (by omega)]
      simp
    · -- len = size, the fully occupied ring: a rotation of `range size`
      have hfull : len = size := le_antisymm hlen hge
      subst hfull
      by_cases hz : offset = 0
      · rw [hz, occupiedSlots_eq_of_le (by omega)]
        simp
      · rw [occupiedSlots_eq_wrapped hoff le_rfl (by omega)]
        have e2 : len - (len - offset) = offset := by omega
        rw [e2]
        have e1 : List.range len =
            List.range offset ++ (List.range (len - offset)).map (offset + ·) := by
          have hsplit : len = offset + (len - offset) := by omega
          conv_lhs => rw [hsplit]
          rw [List.range_add]
        rw [e1]
        exact List.perm_append_comm

/-- Claim C3: for every reachable `LoopedStack` configuration (any capacity
`C ≥ 1`, any `0 ≤ length ≤ C`, any offset `< C`), destruction destructs
exactly the occupied physical slots once each and no unoccupied slot, and
the destructed region is the single range `[0, length)` when `length = C` or
`offset = 0`, the single range `[offset, offset+length)` when
`offset + length ≤ C`, and otherwise the two ranges `[offset, C)` and
`[0, length - (C - offset))`. -/
theorem drop_destructs_exactly_occupied (size offset len : Nat)
    (hsz : 0 < size) (hlen : len ≤ size) (hoff : offset < size) :
    (droppedSlots size offset len).Perm (occupiedSlots size offset len) ∧
    (droppedSlots size offset len).Nodup ∧
    (occupiedSlots size offset len).Nodup ∧
    (len = size ∨ offset = 0 → droppedSlots size offset len = List.range len) ∧
    (len < size → offset ≠ 0 → offset + len ≤ size →
      droppedSlots size offset len = (List.range len).map (offset + ·)) ∧
    (len < size → offset ≠ 0 → size < offset + len →
      droppedSlots size offset len =
        (List.range (size - offset)).map (offset + ·) ++
        List.range (len - (size - offset))) := by
  have hperm := droppedSlots_perm_occupied hsz hlen hoff
  have hnd := occupiedSlots_nodup offset hlen
  refine ⟨hperm, hperm.nodup_iff.mpr hnd, hnd, ?_, ?_, ?_⟩
  · intro hcase
    refine droppedSlots_full_or_zero ?_
    rintro ⟨hlt, hnz⟩
    rcases hcase with hfull | hzero
    · omega
    · exact hnz hzero
  · intro h1 h2 h3
    exact droppedSlots_contiguous ⟨h1, h2⟩ h3
  · intro h1 h2 h3
    exact droppedSlots_wrapped ⟨h1, h2⟩ (by omega)

/-- Witness for C3 at the wrapped configuration of the crate's own memory
test: capacity 3, offset 2, length 2 (occupancy `[X][ ][X]`). -/
theorem drop_destructs_exactly_occupied_witness :
    (droppedSlots 3 2 2).Perm (occupiedSlots 3 2 2) ∧
    (droppedSlots 3 2 2).Nodup ∧
    (occupiedSlots 3 2 2).Nodup ∧
    (2 = 3 ∨ 2 = 0 → droppedSlots 3 2 2 = List.range 2) ∧
    (2 < 3 → 2 ≠ 0 → 2 + 2 ≤ 3 → droppedSlots 3 2 2 = (List.range 2).map (2 + ·)) ∧
    (2 < 3 → 2 ≠ 0 → 3 < 2 + 2 →
      droppedSlots 3 2 2 =
        (List.range (3 - 2)).map (2 + ·) ++ List.range (2 - (3 - 2))) :=
  drop_destructs_exactly_occupied 3 2 2 (by decide) (by decide) (by decide)

/-! ### Structural lemmas about push / pop / extend -/

lemma push_of_lt {s : LoopedStack T} (h : s.len < s.size) (v : T) :
    s.push v = (none, s.push_new v) := by
  unfold push
  rw [if_pos h]

lemma push_of_full {s : LoopedStack T} (h : ¬ s.len < s.size) (v : T) :
    s.push v = (some (s.buf.getD s.cursor default),
      { s with buf := s.buf.set s.cursor v, offset := (s.offset + 1) % s.size }) := by
  unfold push
  rw [if_neg h]
  rfl

lemma cursor_of_full {s : LoopedStack T} (hWF : s.WF) (h : ¬ s.len < s.size) :
    s.cursor = s.offset := by
  obtain ⟨hsz, hbuf, hlen, hoff⟩ := hWF
  have : s.len = s.size := by omega
  unfold cursor
  rw [this, Nat.add_mod_right]
  exact Nat.mod_eq_of_lt hoff

lemma size_push (s : LoopedStack T) (v : T) : ((s.push v).2).size = s.size := by
  unfold push push_new push_inplace
  split <;> rfl

lemma buf_length_push (s : LoopedStack T) (v : T) :
    ((s.push v).2).buf.length = s.buf.length := by
  unfold push push_new push_inplace
  split <;> simp

lemma len_push (s : LoopedStack T) (v : T) :
    ((s.push v).2).len = if s.len < s.size then s.len + 1 else s.len := by
  unfold push push_new push_inplace
  split <;> simp_all

lemma WF_push {s : LoopedStack T} (hWF : s.WF) (v : T) : ((s.push v).2).WF := by
  obtain ⟨hsz, hbuf, hlen, hoff⟩ := hWF
  by_cases hlt : s.len < s.size
  · rw [push_of_lt hlt]
    exact ⟨hsz, by simpa [push_new] using hbuf, by simp [push_new]; omega,
      by simpa [push_new] using hoff⟩
  · rw [push_of_full hlt]
    exact ⟨hsz, by simpa using hbuf, hlen, Nat.mod_lt _ hsz⟩

lemma WF_pop {s : LoopedStack T} (hWF : s.WF) : ((s.pop).2).WF := by
  obtain ⟨hsz, hbuf, hlen, hoff⟩ := hWF
  unfold pop WF
  split <;> simp_all <;> omega

/-- Logical contents after a push: append when below capacity, otherwise the
oldest element is dropped and the new one appended. -/
lemma toList_push {s : LoopedStack T} (hWF : s.WF) (v : T) :
    toList (s.push v).2 =
      if s.len < s.size then toList s ++ [v] else (toList s).drop 1 ++ [v] := by
  obtain ⟨hsz, hbuf, hlen, hoff⟩ := hWF
  by_cases hlt : s.len < s.size
  · rw [if_pos hlt, push_of_lt hlt]
    unfold push_new toList
    simp only
    rw [List.range_succ, List.map_append]
    congr 1
    · refine List.map_congr_left ?_
      intro i hi
      rw [List.mem_range] at hi
      have hne : s.cursor ≠ (s.offset + i) % s.size := by
        unfold cursor
        intro hEq
        have : s.len = i := mod_add_cancel hlt (by omega) hEq
        omega
      rw [List.getD_eq_getElem?_getD, List.getD_eq_getElem?_getD,
        List.getElem?_set_ne hne]
    · unfold cursor
      simp only [List.map_cons, List.map_nil]
      rw [List.getD_eq_getElem?_getD,
        List.getElem?_set_self (by rw [hbuf]; exact Nat.mod_lt _ hsz)]
      rfl
  · rw [if_neg hlt, push_of_full hlt]
    have hfull : s.len = s.size := by omega
    have hcur : s.cursor = s.offset := cursor_of_full ⟨hsz, hbuf, hlen, hoff⟩ hlt
    unfold toList
    simp only
    have hlen1 : s.len = (s.len - 1) + 1 := by omega
    -- right-hand side: drop the head of the logical list
    conv_rhs => rw [hlen1, List.range_succ_eq_map]
    simp only [List.map_cons, List.drop_succ_cons, List.drop_zero, List.map_map]
    -- left-hand side: split the last logical index off
    conv_lhs => rw [hlen1, List.range_succ]
    rw [List.map_append]
    congr 1
    · refine List.map_congr_left ?_
      intro i hi
      rw [List.mem_range] at hi
      simp only [Function.comp_apply, Nat.succ_eq_add_one]
      have hmod : ((s.offset + 1) % s.size + i) % s.size =
          (s.offset + (1 + i)) % s.size := by
        rw [Nat.mod_add_mod, Nat.add_assoc]
      have hne : s.offset ≠ (s.offset + (1 + i)) % s.size := by
        intro hEq
        have h0 : (s.offset + 0) % s.size = (s.offset + (1 + i)) % s.size := by
          rw [Nat.add_zero, Nat.mod_eq_of_lt hoff]
          exact hEq
        have : 0 = 1 + i := mod_add_cancel hsz (by omega) h0
        omega
      rw [hcur, hmod, List.getD_eq_getElem?_getD, List.getD_eq_getElem?_getD,
        List.getElem?_set_ne hne, Nat.add_comm 1 i]
    · simp only [List.map_cons, List.map_nil]
      have hmod : ((s.offset + 1) % s.size + (s.len - 1)) % s.size = s.offset := by
        rw [Nat.mod_add_mod]
        have : s.offset + 1 + (s.len - 1) = s.offset + s.size := by omega
        rw [this, Nat.add_mod_right]
        exact Nat.mod_eq_of_lt hoff
      rw [hcur, hmod, List.getD_eq_getElem?_getD,
        List.getElem?_set_self (by rw [hbuf]; exact hoff)]
      rfl

lemma toList_length (s : LoopedStack T) : (toList s).length = s.len := by
  simp [toList]

/-- Pop returns the newest logical element and shortens the logical list. -/
lemma pop_explicit {s : LoopedStack T} (h : s.len ≠ 0) :
    s.pop = (some (s.buf.getD ((s.offset + (s.len - 1)) % s.size) default),
      { s with len := s.len - 1 }) := by
  unfold pop
  rw [if_neg h]

lemma pop_spec {s : LoopedStack T} (h : s.len ≠ 0) :
    (s.pop).1 = (toList s).getLast? ∧ toList (s.pop).2 = (toList s).dropLast := by
  have hsplit : List.range s.len = List.range (s.len - 1) ++ [s.len - 1] := by
    have hlen1 : s.len = (s.len - 1) + 1 := by omega
    conv_lhs => rw [hlen1]
    rw [List.range_succ]
  rw [pop_explicit h]
  unfold toList
  rw [hsplit, List.map_append]
  simp only [List.map_cons, List.map_nil]
  exact ⟨(List.getLast?_concat _).symm, by rw [List.dropLast_concat]⟩

lemma pop_of_empty {s : LoopedStack T} (h : s.len = 0) : s.pop = (none, s) := by
  unfold pop
  rw [if_pos h]

lemma WF_extend {s : LoopedStack T} (hWF : s.WF) (vs : List T) :
    (s.extend vs).WF := by
  induction vs generalizing s with
  | nil => exact hWF
  | cons v vs ih =>
    unfold extend
    simp only [List.foldl_cons]
    exact ih (WF_push hWF v)

lemma size_extend (s : LoopedStack T) (vs : List T) :
    (s.extend vs).size = s.size := by
  induction vs generalizing s with
  | nil => rfl
  | cons v vs ih =>
    show (((s.push v).2).extend vs).size = s.size
    rw [ih ((s.push v).2), size_push]

/-- Extending within remaining capacity appends to the logical contents and
evicts nothing. -/
lemma toList_extend_of_le {s : LoopedStack T} (hWF : s.WF) (vs : List T)
    (hle : s.len + vs.length ≤ s.size) :
    toList (s.extend vs) = toList s ++ vs ∧
    (s.extend vs).len = s.len + vs.length := by
  induction vs generalizing s with
  | nil => simp [extend]
  | cons v vs ih =>
    have hlt : s.len < s.size := by
      simp only [List.length_cons] at hle
      omega
    have hWF' := WF_push hWF v
    have hlen' : ((s.push v).2).len = s.len + 1 := by
      rw [len_push, if_pos hlt]
    have hsz' : ((s.push v).2).size = s.size := size_push s v
    have hle' : ((s.push v).2).len + vs.length ≤ ((s.push v).2).size := by
      rw [hlen', hsz']
      simp only [List.length_cons] at hle
      omega
    unfold extend
    simp only [List.foldl_cons]
    have := ih hWF' hle'
    unfold extend at this
    refine ⟨?_, ?_⟩
    · rw [this.1, toList_push hWF, if_pos hlt]
      simp
    · rw [this.2, hlen']
      simp only [List.length_cons]
      omega

lemma WF_new (T : Type) [Inhabited T] {capacity : Nat} (hC : 1 ≤ capacity) :
    (new T capacity).WF :=
  ⟨hC, List.length_replicate _ _, Nat.zero_le _, hC⟩

lemma WF_pushRun (T : Type) [Inhabited T] {capacity : Nat} (hC : 1 ≤ capacity)
    (vs : List T) : (pushRun T capacity vs).WF :=
  WF_extend (WF_new T hC) vs

lemma size_pushRun (T : Type) [Inhabited T] (capacity : Nat) (vs : List T) :
    (pushRun T capacity vs).size = capacity :=
  size_extend (new T capacity) vs

/-- A push into a full stack reads out the logically oldest element. -/
lemma push_full_returns_oldest {s : LoopedStack T} (hWF : s.WF)
    (hfull : s.len = s.size) (v : T) : (s.push v).1 = s.get 0 := by
  obtain ⟨hsz, hbuf, hlen, hoff⟩ := hWF
  have hlt : ¬ s.len < s.size := by omega
  rw [push_of_full hlt]
  unfold get
  rw [if_neg (by omega)]
  simp only
  congr 1
  rw [cursor_of_full ⟨hsz, hbuf, hlen, hoff⟩ hlt, Nat.add_zero,
    Nat.mod_eq_of_lt hoff]

/-- Claim C5: for every capacity `C ≥ 1` and every sequence of pushes, the
stack never holds more than `C` live elements; a push while `len < C`
returns `none` and grows the length by one, and a push while `len = C`
returns exactly the element at logical index 0 (the logically oldest) and
advances the offset by one modulo `C`. -/
theorem push_bounded_and_evicts_oldest (T : Type) [Inhabited T]
    (C : Nat) (hC : 1 ≤ C) (vs : List T) (v : T) :
    (pushRun T C vs).len ≤ C ∧
    ((pushRun T C vs).len < C →
      ((pushRun T C vs).push v).1 = none ∧
      (((pushRun T C vs).push v).2).len = (pushRun T C vs).len + 1) ∧
    ((pushRun T C vs).len = C →
      ((pushRun T C vs).push v).1 = (pushRun T C vs).get 0 ∧
      (((pushRun T C vs).push v).2).offset =
        ((pushRun T C vs).offset + 1) % C ∧
      (((pushRun T C vs).push v).2).len = C) := by
  have hWF := WF_pushRun T hC vs
  have hsz := size_pushRun T C vs
  refine ⟨by have h1 := hWF.2.2.1; omega, ?_, ?_⟩
  · intro hlt
    have hlt' : (pushRun T C vs).len < (pushRun T C vs).size := by omega
    constructor
    · rw [push_of_lt hlt']
    · rw [len_push, if_pos hlt']
  · intro hfull
    have hlt' : ¬ (pushRun T C vs).len < (pushRun T C vs).size := by omega
    refine ⟨push_full_returns_oldest hWF (by omega) v, ?_, ?_⟩
    · rw [push_of_full hlt']
      simp only
      rw [hsz]
    · rw [len_push, if_neg hlt']
      exact hfull

/-- Witness for C5 at capacity 3 after the wrapped push sequence
`[10, 11, 12, 13]` (length 3 = capacity, offset 1). -/
theorem push_bounded_and_evicts_oldest_witness :
    (pushRun Nat 3 [10, 11, 12, 13]).len ≤ 3 ∧
    ((pushRun Nat 3 [10, 11, 12, 13]).len < 3 →
      ((pushRun Nat 3 [10, 11, 12, 13]).push 99).1 = none ∧
      (((pushRun Nat 3 [10, 11, 12, 13]).push 99).2).len =
        (pushRun Nat 3 [10, 11, 12, 13]).len + 1) ∧
    ((pushRun Nat 3 [10, 11, 12, 13]).len = 3 →
      ((pushRun Nat 3 [10, 11, 12, 13]).push 99).1 =
        (pushRun Nat 3 [10, 11, 12, 13]).get 0 ∧
      (((pushRun Nat 3 [10, 11, 12, 13]).push 99).2).offset =
        ((pushRun Nat 3 [10, 11, 12, 13]).offset + 1) % 3 ∧
      (((pushRun Nat 3 [10, 11, 12, 13]).push 99).2).len = 3) :=
  push_bounded_and_evicts_oldest Nat 3 (by decide) [10, 11, 12, 13] 99

/-- Claim C6: `pop` returns `none` exactly when the stack is empty and
otherwise removes and returns the newest logical element (LIFO), in
particular the value just pushed — also after wraparound pushes that have
moved the offset. -/
theorem pop_returns_newest {T : Type} [Inhabited T] {s : LoopedStack T}
    (hWF : s.WF) :
    (s.len = 0 → s.pop = (none, s)) ∧
    (s.len ≠ 0 →
      (s.pop).1 = (toList s).getLast? ∧
      toList (s.pop).2 = (toList s).dropLast) ∧
    (∀ v : T, (((s.push v).2).pop).1 = some v) := by
  refine ⟨pop_of_empty, pop_spec, ?_⟩
  intro v
  have hlen : ((s.push v).2).len ≠ 0 := by
    rw [len_push]
    obtain ⟨hsz, hbuf, hle, hoff⟩ := hWF
    split <;> omega
  rw [(pop_spec hlen).1, toList_push hWF]
  split <;> rw [List.getLast?_concat]

/-- Witness for C6 on the wrapped stack reached by pushing `[1, 2, 3, 4]`
into capacity 3 (offset 1; the physically last slot holds 3, yet pop
returns 4, the most recently pushed value). -/
theorem pop_returns_newest_witness :
    ((pushRun Nat 3 [1, 2, 3, 4]).len = 0 →
      (pushRun Nat 3 [1, 2, 3, 4]).pop = (none, pushRun Nat 3 [1, 2, 3, 4])) ∧
    ((pushRun Nat 3 [1, 2, 3, 4]).len ≠ 0 →
      ((pushRun Nat 3 [1, 2, 3, 4]).pop).1 =
        (toList (pushRun Nat 3 [1, 2, 3, 4])).getLast? ∧
      toList ((pushRun Nat 3 [1, 2, 3, 4]).pop).2 =
        (toList (pushRun Nat 3 [1, 2, 3, 4])).dropLast) ∧
    (∀ v : Nat, ((((pushRun Nat 3 [1, 2, 3, 4]).push v).2).pop).1 = some v) :=
  pop_returns_newest (WF_pushRun Nat (by decide) [1, 2, 3, 4])

lemma toList_getLast_eq {s : LoopedStack T} (h : s.len ≠ 0) :
    (toList s).getLast? =
      some (s.buf.getD ((s.offset + (s.len - 1)) % s.size) default) := by
  rw [← (pop_spec h).1, pop_explicit h]

lemma toList_dropLast_eq {s : LoopedStack T} (h : s.len ≠ 0) :
    (toList s).dropLast =
      (List.range (s.len - 1)).map
        (fun i => s.buf.getD ((s.offset + i) % s.size) default) := by
  rw [← (pop_spec h).2, pop_explicit h]
  rfl

end LoopedStack

namespace History

variable {T S : Type} [DecidableEq T] [Inhabited T] [Inhabited S]

open LoopedStack in
/-- The reversed-iterator loop visits the first `n` logical entries in
newest-to-oldest order: it computes `find?` on the reversed prefix. -/
lemma findPrevAux_eq (buf : List (HEntry T S)) (offset : Nat) (typ : T)
    (n : Nat) :
    findPrevAux buf offset typ n =
      ((((List.range n).map
          (fun i => buf.getD ((offset + i) % buf.length) default)).reverse.find?
        (fun e => e.typ = typ)).map HEntry.snaps) := by
  induction n with
  | zero => simp [findPrevAux]
  | succ n ih =>
    rw [List.range_succ, List.map_append, List.reverse_append]
    simp only [List.map_cons, List.map_nil, List.reverse_cons, List.reverse_nil,
      List.nil_append, List.singleton_append, List.find?_cons]
    unfold findPrevAux
    simp only
    by_cases hp : (buf.getD ((offset + n) % buf.length) default).typ = typ
    · rw [if_pos hp, decide_eq_true hp]
      rfl
    · rw [if_neg hp, decide_eq_false hp, ih]

open LoopedStack in
/-- `get_last_snapshot` characterised on the logical timeline contents:
with newest entry `e`, it scans the remaining entries newest-to-oldest for
the first one with `e`'s model id and otherwise falls back to `e`'s
baseline. -/
lemma get_last_snapshot_eq {h : History T S} (hWF : h.entries.WF)
    (hne : h.entries.len ≠ 0) {e : HEntry T S}
    (hlast : (toList h.entries).getLast? = some e) :
    h.get_last_snapshot =
      match (toList h.entries).dropLast.reverse.find?
          (fun x => x.typ = e.typ) with
      | some x => some (e.typ, x.snaps)
      | none => (baselineLookup h.baselines e.typ).map (fun sn => (e.typ, sn)) := by
  obtain ⟨hsz, hbuf, hlen, hoff⟩ := hWF
  have hlastv := toList_getLast_eq hne
  rw [hlast] at hlastv
  have he : e = h.entries.buf.getD
      ((h.entries.offset + (h.entries.len - 1)) % h.entries.size) default :=
    Option.some.inj hlastv
  unfold get_last_snapshot
  simp only
  rw [if_neg hne, hbuf, ← he, findPrevAux_eq, hbuf,
    ← toList_dropLast_eq hne]
  rcases hfind : (toList h.entries).dropLast.reverse.find?
      (fun x => x.typ = e.typ) with _ | x
  · simp [hfind]
  · simp [hfind]

/-- `InnerHistory::undo` on a non-empty timeline: pop the newest entry and
append it to the redo stack. -/
lemma innerUndo_explicit {h : History T S} (hne : h.entries.len ≠ 0) :
    innerUndo h =
      { h with
        entries := (h.entries.pop).2,
        undo_stack := h.undo_stack ++
          [h.entries.buf.getD
            ((h.entries.offset + (h.entries.len - 1)) % h.entries.size)
            default] } := by
  unfold innerUndo
  rw [LoopedStack.pop_explicit hne]

open LoopedStack in
/-- Claim C4: for every non-empty timeline, `undo` determines the snapshot
to restore by scanning the timeline newest-to-oldest, skipping the newest
entry `e` itself, taking the snapshot of the first entry whose model id
equals `e.typ`, and falling back to that model's baseline; only after the
restore succeeds is `e` popped off the timeline and pushed onto the redo
stack, and a failed restore moves nothing. -/
theorem undo_scans_backward_then_moves {h : History T S} (ro : T → S → Bool)
    (hWF : h.entries.WF) (hne : h.entries.len ≠ 0) {e : HEntry T S}
    (hlast : (toList h.entries).getLast? = some e) :
    (h.get_last_snapshot =
      match (toList h.entries).dropLast.reverse.find?
          (fun x => x.typ = e.typ) with
      | some x => some (e.typ, x.snaps)
      | none => (baselineLookup h.baselines e.typ).map (fun sn => (e.typ, sn))) ∧
    (∀ t sn, h.get_last_snapshot = some (t, sn) →
      (ro t sn = true →
        undo ro h = (Except.ok (),
          { h with
            entries := (h.entries.pop).2,
            undo_stack := h.undo_stack ++ [e] }) ∧
        toList ((h.entries.pop).2) = (toList h.entries).dropLast) ∧
      (ro t sn = false →
        undo ro h = (Except.error HistoryError.RestoreFailed, h))) := by
  refine ⟨get_last_snapshot_eq ⟨hWF.1, hWF.2.1, hWF.2.2.1, hWF.2.2.2⟩ hne hlast, ?_⟩
  intro t sn hgls
  have hlastv := toList_getLast_eq hne
  rw [hlast] at hlastv
  have he : e = h.entries.buf.getD
      ((h.entries.offset + (h.entries.len - 1)) % h.entries.size) default :=
    Option.some.inj hlastv
  constructor
  · intro hro
    constructor
    · simp only [undo, hgls, hro, if_true]
      rw [innerUndo_explicit hne, ← he]
    · exact (pop_spec hne).2
  · intro hro
    simp only [undo, hgls, hro, Bool.false_eq_true, if_false]

/-- Witness for C4 on the `basic_api_test` state (timeline
`[(0,42), (0,69), (1,3), (0,117)]`): the scan skips `(0,117)` and finds
`(0,69)`, and a successful restore moves `(0,117)` to the redo stack. -/
theorem undo_scans_backward_then_moves_witness :
    (sampleHist.get_last_snapshot =
      match (LoopedStack.toList sampleHist.entries).dropLast.reverse.find?
          (fun x => x.typ = (HEntry.mk 0 117).typ) with
      | some x => some ((HEntry.mk 0 117).typ, x.snaps)
      | none => (baselineLookup sampleHist.baselines (HEntry.mk 0 117).typ).map
          (fun sn => ((HEntry.mk 0 117).typ, sn))) ∧
    (∀ t sn, sampleHist.get_last_snapshot = some (t, sn) →
      (roAlways t sn = true →
        undo roAlways sampleHist = (Except.ok (),
          { sampleHist with
            entries := (sampleHist.entries.pop).2,
            undo_stack := sampleHist.undo_stack ++ [HEntry.mk 0 117] }) ∧
        LoopedStack.toList ((sampleHist.entries.pop).2) =
          (LoopedStack.toList sampleHist.entries).dropLast) ∧
      (roAlways t sn = false →
        undo roAlways sampleHist =
          (Except.error HistoryError.RestoreFailed, sampleHist))) :=
  undo_scans_backward_then_moves (h := sampleHist) (e := HEntry.mk 0 117)
    roAlways (by decide) (by decide) (by decide)

open LoopedStack in
/-- Claim C10: a non-empty timeline whose newest entry has no older
same-model entry and no registered baseline makes `undo` fail with
`NoSnapshot` — independently of the restore oracle, with the state left
unchanged — even though `can_undo` reports `true`. -/
theorem undo_no_snapshot_despite_can_undo {h : History T S}
    (hWF : h.entries.WF) (hne : h.entries.len ≠ 0) {e : HEntry T S}
    (hlast : (toList h.entries).getLast? = some e)
    (hnoprev : (toList h.entries).dropLast.reverse.find?
        (fun x => x.typ = e.typ) = none)
    (hnobase : baselineLookup h.baselines e.typ = none) :
    can_undo h = true ∧
    ∀ ro, undo ro h = (Except.error HistoryError.NoSnapshot, h) := by
  have hgls : h.get_last_snapshot = none := by
    rw [get_last_snapshot_eq hWF hne hlast, hnoprev, hnobase]
    rfl
  constructor
  · unfold can_undo
    simp only [decide_eq_true_eq]
    omega
  · intro ro
    unfold undo
    rw [hgls]

/-- Witness for C10: capacity-2 engine after a single `push(0, 1)` with no
`begin` call; `can_undo` is `true` yet every `undo` fails with
`NoSnapshot` and changes nothing. -/
theorem undo_no_snapshot_despite_can_undo_witness :
    can_undo noBaselineHist = true ∧
    ∀ ro, undo ro noBaselineHist =
      (Except.error HistoryError.NoSnapshot, noBaselineHist) :=
  undo_no_snapshot_despite_can_undo (h := noBaselineHist) (e := HEntry.mk 0 1)
    (by decide) (by decide) (by decide) (by decide) (by decide)

/-! ### Equation lemmas for `undo` and `redo` -/

lemma undo_none {h : History T S} (ro : T → S → Bool)
    (hgls : h.get_last_snapshot = none) :
    undo ro h = (Except.error HistoryError.NoSnapshot, h) := by
  simp only [undo, hgls]

lemma undo_ok {h : History T S} {ro : T → S → Bool} {t : T} {sn : S}
    (hgls : h.get_last_snapshot = some (t, sn)) (hro : ro t sn = true) :
    undo ro h = (Except.ok (), innerUndo h) := by
  simp only [undo, hgls, hro, if_true]

lemma undo_fail {h : History T S} {ro : T → S → Bool} {t : T} {sn : S}
    (hgls : h.get_last_snapshot = some (t, sn)) (hro : ro t sn = false) :
    undo ro h = (Except.error HistoryError.RestoreFailed, h) := by
  simp only [undo, hgls, hro, Bool.false_eq_true, if_false]

lemma redo_none {h : History T S} (ro : T → S → Bool)
    (hempty : h.undo_stack.getLast? = none) :
    redo ro h = (Except.error HistoryError.NoSnapshot, h) := by
  simp only [redo, hempty]

lemma redo_ok {h : History T S} {ro : T → S → Bool} {e : HEntry T S}
    (hlast : h.undo_stack.getLast? = some e) (hro : ro e.typ e.snaps = true) :
    redo ro h = (Except.ok (),
      innerRedo { h with undo_stack := h.undo_stack.dropLast } e) := by
  simp only [redo, hlast, hro, if_true]

lemma redo_fail {h : History T S} {ro : T → S → Bool} {e : HEntry T S}
    (hlast : h.undo_stack.getLast? = some e) (hro : ro e.typ e.snaps = false) :
    redo ro h = (Except.error HistoryError.RestoreFailed,
      { h with undo_stack := h.undo_stack.dropLast }) := by
  simp only [redo, hlast, hro, Bool.false_eq_true, if_false]

/-- Claim C1 (amended): a failed restore during `undo` leaves the engine
exactly as it was; a failed restore during `redo` leaves the timeline and
the baselines unchanged, but the failed entry has by then already been
popped off the redo stack (`Vec::pop` runs before the restore) and is
dropped. -/
theorem restore_failure_paths (ro : T → S → Bool) (h : History T S) :
    ((undo ro h).1 = Except.error HistoryError.RestoreFailed →
      (undo ro h).2 = h) ∧
    ((redo ro h).1 = Except.error HistoryError.RestoreFailed →
      (redo ro h).2 = { h with undo_stack := h.undo_stack.dropLast } ∧
      (redo ro h).2.entries = h.entries ∧
      (redo ro h).2.baselines = h.baselines) := by
  constructor
  · intro hfail
    rcases hgls : h.get_last_snapshot with _ | p
    · rw [undo_none ro hgls] at hfail
      simp at hfail
    · obtain ⟨t, sn⟩ := p
      by_cases hro : ro t sn = true
      · rw [undo_ok hgls hro] at hfail
        simp at hfail
      · rw [undo_fail hgls (by simpa using hro)]
  · intro hfail
    rcases hlast : h.undo_stack.getLast? with _ | e
    · rw [redo_none ro hlast] at hfail
      simp at hfail
    · by_cases hro : ro e.typ e.snaps = true
      · rw [redo_ok hlast hro] at hfail
        simp at hfail
      · rw [redo_fail hlast (by simpa using hro)]
        exact ⟨rfl, rfl, rfl⟩

/-- Witness for the amended C1 on `smallHist` (timeline `[(0,42)]`, redo
stack `[(0,69)]`) with an always-failing restore. -/
theorem restore_failure_paths_witness :
    (undo roNever smallHist).2 = smallHist ∧
    ((redo roNever smallHist).2 =
      { smallHist with undo_stack := smallHist.undo_stack.dropLast } ∧
    (redo roNever smallHist).2.entries = smallHist.entries ∧
    (redo roNever smallHist).2.baselines = smallHist.baselines) :=
  ⟨(restore_failure_paths roNever smallHist).1 rfl,
   (restore_failure_paths roNever smallHist).2 rfl⟩

/-- Claim C1 counterexample: on `smallHist`, a `redo` whose restore fails
returns `RestoreFailed` but does NOT leave the redo stack as it was — the
entry `(0, 69)` has been popped and is in neither container afterwards. -/
theorem redo_restore_failure_loses_entry :
    smallHist.undo_stack = [HEntry.mk 0 69] ∧
    (redo roNever smallHist).1 = Except.error HistoryError.RestoreFailed ∧
    (redo roNever smallHist).2.undo_stack = [] ∧
    LoopedStack.toList (redo roNever smallHist).2.entries =
      LoopedStack.toList smallHist.entries ∧
    (HEntry.mk 0 69) ∉
      LoopedStack.toList (redo roNever smallHist).2.entries :=
  ⟨by decide, rfl, by decide, by decide, by decide⟩

open LoopedStack in
/-- Every single API operation preserves the engine invariant. -/
lemma histWF_step (ro : T → S → Bool) {h : History T S} (hWF : HistWF h)
    (op : Op T S) : HistWF (step ro h op) := by
  obtain ⟨hSWF, hsum⟩ := hWF
  cases op with
  | beginOp typ f =>
    show HistWF (h.begin typ f)
    unfold begin
    split
    · exact ⟨hSWF, hsum⟩
    · exact ⟨hSWF, hsum⟩
  | pushOp typ snap =>
    have hw := WF_push hSWF (HEntry.mk typ snap)
    exact ⟨hw, by simpa using hw.2.2.1⟩
  | insertOp typ snap =>
    have hw := WF_push (WF_extend hSWF h.undo_stack) (HEntry.mk typ snap)
    exact ⟨hw, by simpa using hw.2.2.1⟩
  | undoOp =>
    show HistWF (undo ro h).2
    rcases hgls : h.get_last_snapshot with _ | p
    · rw [undo_none ro hgls]
      exact ⟨hSWF, hsum⟩
    · obtain ⟨t, sn⟩ := p
      by_cases hro : ro t sn = true
      · rw [undo_ok hgls hro]
        by_cases hne : h.entries.len = 0
        · unfold innerUndo
          rw [pop_of_empty hne]
          exact ⟨hSWF, hsum⟩
        · rw [innerUndo_explicit hne]
          refine ⟨WF_pop hSWF, ?_⟩
          have hlp : ((h.entries.pop).2).len = h.entries.len - 1 := by
            rw [pop_explicit hne]
          have hsp : ((h.entries.pop).2).size = h.entries.size := by
            rw [pop_explicit hne]
          simp only [List.length_append, List.length_cons, List.length_nil]
          omega
      · rw [undo_fail hgls (by simpa using hro)]
        exact ⟨hSWF, hsum⟩
  | redoOp =>
    show HistWF (redo ro h).2
    rcases hlast : h.undo_stack.getLast? with _ | e
    · rw [redo_none ro hlast]
      exact ⟨hSWF, hsum⟩
    · have hult : h.undo_stack ≠ [] := by
        intro hh
        rw [hh] at hlast
        simp at hlast
      have hupos : 0 < h.undo_stack.length := List.length_pos.mpr hult
      have hdlen : h.undo_stack.dropLast.length = h.undo_stack.length - 1 :=
        List.length_dropLast _
      by_cases hro : ro e.typ e.snaps = true
      · rw [redo_ok hlast hro]
        have hlt : h.entries.len < h.entries.size := by omega
        refine ⟨WF_push hSWF e, ?_⟩
        have hlp : ((h.entries.push e).2).len = h.entries.len + 1 := by
          rw [len_push, if_pos hlt]
        have hsp : ((h.entries.push e).2).size = h.entries.size :=
          size_push h.entries e
        show ((h.entries.push e).2).len + h.undo_stack.dropLast.length ≤
          ((h.entries.push e).2).size
        omega
      · rw [redo_fail hlast (by simpa using hro)]
        exact ⟨hSWF, by simp only [hdlen]; omega⟩

open LoopedStack in
/-- Claim C2: for every capacity `C ≥ 1`, every restore oracle and every
sequence of begin/push/insert/undo/redo operations from a fresh engine, the
invariant `timeline.length + redo_stack.length ≤ timeline.capacity` holds,
and consequently the timeline push performed inside `redo` (which runs with
a non-empty redo stack) can never evict an entry. -/
theorem capacity_invariant_holds (ro : T → S → Bool) (C : Nat) (hC : 1 ≤ C)
    (ops : List (Op T S)) :
    HistWF (run ro C ops) ∧
    ((run ro C ops).undo_stack ≠ [] →
      ∀ e, ((run ro C ops).entries.push e).1 = none) := by
  have hrun : HistWF (run ro C ops) := by
    have hnew : HistWF (History.new T S C) :=
      ⟨WF_new _ hC, by simp [History.new, LoopedStack.new]⟩
    have hgen : ∀ (l : List (Op T S)) (h0 : History T S), HistWF h0 →
        HistWF (l.foldl (step ro) h0) := by
      intro l
      induction l with
      | nil => intro h0 hh; exact hh
      | cons op l ih =>
        intro h0 hh
        exact ih _ (histWF_step ro hh op)
    exact hgen ops _ hnew
  refine ⟨hrun, ?_⟩
  intro hne e
  obtain ⟨hSWF, hsum⟩ := hrun
  have hupos : 0 < (run ro C ops).undo_stack.length := List.length_pos.mpr hne
  have hlt : (run ro C ops).entries.len < (run ro C ops).entries.size := by
    omega
  rw [push_of_lt hlt]

/-- Witness for C2 on a capacity-2 engine driven through every operation
kind, including interleaved undo/redo/insert. -/
theorem capacity_invariant_holds_witness :
    HistWF (run roAlways 2 fullOps) ∧
    ((run roAlways 2 fullOps).undo_stack ≠ [] →
      ∀ e, ((run roAlways 2 fullOps).entries.push e).1 = none) :=
  capacity_invariant_holds roAlways 2 (by decide) fullOps

open LoopedStack in
/-- Claim C7 (amended): `insert` drains the entire redo stack back into the
timeline in `Vec::drain(..)` order (oldest-undone first) and then pushes the
new entry; afterwards `can_redo` is false.  The drained entries are never
evicted by the drain itself; only the final push can evict, and it evicts
the head of `timeline ++ drained redo entries` exactly when that combined
sequence already fills the capacity — so when the timeline was empty and
the redo stack full, the evicted element is itself a previously-undone
entry. -/
theorem insert_drains_redo {h : History T S} (typ : T) (snap : S)
    (hWF : HistWF h) :
    (h.insertOp typ snap).1 = Except.ok () ∧
    (h.insertOp typ snap).2.undo_stack = [] ∧
    can_redo (h.insertOp typ snap).2 = false ∧
    toList (h.insertOp typ snap).2.entries =
      (if (toList h.entries ++ h.undo_stack).length = h.entries.size
       then (toList h.entries ++ h.undo_stack).drop 1
       else toList h.entries ++ h.undo_stack) ++ [HEntry.mk typ snap] := by
  obtain ⟨hSWF, hsum⟩ := hWF
  refine ⟨rfl, rfl, rfl, ?_⟩
  have hext := toList_extend_of_le hSWF h.undo_stack hsum
  have hWFe := WF_extend hSWF h.undo_stack
  have hsze := size_extend h.entries h.undo_stack
  have hLlen : (toList h.entries ++ h.undo_stack).length =
      h.entries.len + h.undo_stack.length := by
    rw [List.length_append, toList_length]
  show toList ((h.entries.extend h.undo_stack).push (HEntry.mk typ snap)).2 = _
  rw [toList_push hWFe, hext.1]
  by_cases hfull : h.entries.len + h.undo_stack.length = h.entries.size
  · rw [if_neg (by rw [hext.2, hsze]; omega), if_pos (by rw [hLlen]; omega)]
  · rw [if_pos (by rw [hext.2, hsze]; omega), if_neg (by rw [hLlen]; omega)]

/-- Witness for the amended C7 on `smallHist` (timeline `[(0,42)]`, redo
stack `[(0,69)]`, capacity 2 — the combined sequence fills the capacity, so
the final push evicts `(0,42)` and keeps the drained `(0,69)`). -/
theorem insert_drains_redo_witness :
    (smallHist.insertOp 0 55).1 = Except.ok () ∧
    (smallHist.insertOp 0 55).2.undo_stack = [] ∧
    can_redo (smallHist.insertOp 0 55).2 = false ∧
    LoopedStack.toList (smallHist.insertOp 0 55).2.entries =
      (if (LoopedStack.toList smallHist.entries ++ smallHist.undo_stack).length =
          smallHist.entries.size
       then (LoopedStack.toList smallHist.entries ++ smallHist.undo_stack).drop 1
       else LoopedStack.toList smallHist.entries ++ smallHist.undo_stack) ++
      [HEntry.mk 0 55] :=
  insert_drains_redo (h := smallHist) 0 55 (by decide)

/-- Claim C7 counterexample: with capacity 1, after `begin`, `push(0,1)`,
a successful `undo` (redo stack `[(0,1)]`, timeline empty), an
`insert(0,2)` drains `(0,1)` into the timeline and then immediately evicts
it by the final push — the previously-undone entry `(0,1)` is in neither
container afterwards, so it is not reachable by any subsequent `undo`. -/
theorem insert_at_capacity_drops_undone_entry :
    capOneUndone.undo_stack = [HEntry.mk 0 1] ∧
    LoopedStack.toList capOneUndone.entries = [] ∧
    (capOneUndone.insertOp 0 2).2.undo_stack = [] ∧
    LoopedStack.toList (capOneUndone.insertOp 0 2).2.entries = [HEntry.mk 0 2] ∧
    (HEntry.mk 0 1) ∉
      LoopedStack.toList (capOneUndone.insertOp 0 2).2.entries := by
  decide

open LoopedStack in
/-- Claim C8: `push` clears the redo stack entirely before pushing the new
entry into the timeline, so after any `push` — in particular one following
any number of undos — `can_redo` returns `false`. -/
theorem push_clears_redo {h : History T S} (typ : T) (snap : S)
    (hWF : h.entries.WF) :
    (h.pushOp typ snap).1 = Except.ok () ∧
    (h.pushOp typ snap).2.undo_stack = [] ∧
    can_redo (h.pushOp typ snap).2 = false ∧
    toList (h.pushOp typ snap).2.entries =
      (if h.entries.len < h.entries.size
       then toList h.entries
       else (toList h.entries).drop 1) ++ [HEntry.mk typ snap] := by
  refine ⟨rfl, rfl, rfl, ?_⟩
  show toList (h.entries.push (HEntry.mk typ snap)).2 = _
  rw [toList_push hWF]
  by_cases hlt : h.entries.len < h.entries.size
  · rw [if_pos hlt, if_pos hlt]
  · rw [if_neg hlt, if_neg hlt]

/-- Witness for C8 on `smallHist`, whose redo stack is non-empty after an
undo: the push discards it and `can_redo` is `false`. -/
theorem push_clears_redo_witness :
    (smallHist.pushOp 0 77).1 = Except.ok () ∧
    (smallHist.pushOp 0 77).2.undo_stack = [] ∧
    can_redo (smallHist.pushOp 0 77).2 = false ∧
    LoopedStack.toList (smallHist.pushOp 0 77).2.entries =
      (if smallHist.entries.len < smallHist.entries.size
       then LoopedStack.toList smallHist.entries
       else (LoopedStack.toList smallHist.entries).drop 1) ++
      [HEntry.mk 0 77] :=
  push_clears_redo (h := smallHist) 0 77 (by decide)

/-- Claim C9: only the first `begin` for an identifier evaluates its closure
and stores the result; any later `begin` for the same identifier is a no-op
that leaves the stored baseline untouched, regardless of the later
closure. -/
theorem begin_only_first_call (h : History T S) (typ : T) (f g : Unit → S) :
    ((baselineLookup h.baselines typ).isSome = true → h.begin typ f = h) ∧
    ((baselineLookup h.baselines typ).isSome = false →
      h.begin typ f = { h with baselines := (typ, f ()) :: h.baselines } ∧
      baselineLookup (h.begin typ f).baselines typ = some (f ())) ∧
    (h.begin typ f).begin typ g = h.begin typ f := by
  have hcons : ∀ s : S, baselineLookup ((typ, s) :: h.baselines) typ = some s := by
    intro s
    unfold baselineLookup
    rw [List.find?_cons, decide_eq_true rfl]
    rfl
  refine ⟨?_, ?_, ?_⟩
  · intro hsome
    unfold begin
    rw [if_pos hsome]
  · intro hnone
    have habs : ¬ (baselineLookup h.baselines typ).isSome = true := by
      rw [hnone]
      simp
    unfold begin
    rw [if_neg habs]
    exact ⟨rfl, hcons (f ())⟩
  · by_cases hsome : (baselineLookup h.baselines typ).isSome = true
    · have h1 : h.begin typ f = h := by
        unfold begin
        rw [if_pos hsome]
      rw [h1]
      unfold begin
      rw [if_pos hsome]
    · have h1 : h.begin typ f =
          { h with baselines := (typ, f ()) :: h.baselines } := by
        unfold begin
        rw [if_neg hsome]
      rw [h1]
      unfold begin
      rw [if_pos (by rw [hcons (f ())]; rfl)]

/-- Witness for C9 on `noBaselineHist` (no baseline for model 0): the first
`begin` stores 7; a second `begin` that would store 8 changes nothing. -/
theorem begin_only_first_call_witness :
    ((baselineLookup noBaselineHist.baselines 0).isSome = true →
      noBaselineHist.begin 0 (fun _ => 7) = noBaselineHist) ∧
    ((baselineLookup noBaselineHist.baselines 0).isSome = false →
      noBaselineHist.begin 0 (fun _ => 7) =
        { noBaselineHist with
          baselines := (0, (fun _ : Unit => 7) ()) :: noBaselineHist.baselines } ∧
      baselineLookup (noBaselineHist.begin 0 (fun _ => 7)).baselines 0 =
        some ((fun _ : Unit => 7) ())) ∧
    (noBaselineHist.begin 0 (fun _ => 7)).begin 0 (fun _ => 8) =
      noBaselineHist.begin 0 (fun _ => 7) :=
  begin_only_first_call noBaselineHist 0 (fun _ => 7) (fun _ => 8)

end History

end HistoryModel
